import Mathlib

/-!
Verification of scripts/set_version.py, a utility that propagates a semantic
version string across a version marker file, a JSON manifest, a properties
file and a C header macro.

Strings are modelled as lists of characters.  Python functions from the
script are translated one-to-one; each definition carries the name of the
source function where Lean allows it.  File system effects are modelled by
explicit state passing: an absent file is none, an existing file carries its
content.  A call of sys.exit via raise SystemExit is modelled by an Except
error carrying the message as a tagged value.
-/

namespace SetVersion

/-- Shorthand turning a Lean string literal into the list-of-characters model. -/
def strL (s : String) : List Char := s.data

/-- ASCII decimal digit, the reading of the regex class backslash-d used by
SEMVER_RE (the script never feeds it non-ASCII digits). -/
def isAsciiDigit (c : Char) : Bool := 48 ≤ c.val.toNat && c.val.toNat ≤ 57

/-- ASCII whitespace as recognised by Python str.strip and the regex class
backslash-s: space, tab, newline, carriage return, vertical tab, form feed. -/
def isPySpace (c : Char) : Bool :=
  c == ' ' || c == '\t' || c == '\n' || c == '\r' || c == '\x0b' || c == '\x0c'

/-- Line boundary characters recognised by Python str.splitlines. -/
def isLineBreak (c : Char) : Bool :=
  c == '\n' || c == '\r' || c == '\x0b' || c == '\x0c' || c == '\x1c' ||
  c == '\x1d' || c == '\x1e' || c == '\x85' || c == Char.ofNat 0x2028 ||
  c == Char.ofNat 0x2029

/-- Python str.strip(): remove leading and trailing whitespace. -/
def pyStrip (l : List Char) : List Char :=
  ((l.dropWhile isPySpace).reverse.dropWhile isPySpace).reverse

/-- Full match of the regex digits+ dot digits+ dot digits+ (the body of
SEMVER_RE without the end-of-line subtlety of the dollar anchor). -/
def semverCore (l : List Char) : Bool :=
  let r1 := l.dropWhile isAsciiDigit
  !(l.takeWhile isAsciiDigit).isEmpty &&
    match r1 with
    | '.' :: r2 =>
      let r3 := r2.dropWhile isAsciiDigit
      !(r2.takeWhile isAsciiDigit).isEmpty &&
        match r3 with
        | '.' :: r4 =>
          !(r4.takeWhile isAsciiDigit).isEmpty && (r4.dropWhile isAsciiDigit).isEmpty
        | _ => false
    | _ => false

/-- SEMVER_RE.match: the pattern is anchored with a dollar, which in Python
also matches just before one trailing newline. -/
def pyMatch (l : List Char) : Bool :=
  semverCore l || (l.getLast? == some '\n' && semverCore l.dropLast)

/-- The messages of the terminating errors raised by the script.
noVersionProvided stands for the SystemExit text "No version provided and
VERSION file not found.", invalidVersion carries the offending candidate of
the text "Invalid version ... Expected semantic version like 1.0.9",
headerDefineNotFound stands for "Could not find IS31FL373X_VERSION define in
header." and manifestNotObject models the uncaught TypeError raised when the
parsed manifest is not a JSON object. -/
inductive ExitMsg where
  | noVersionProvided
  | invalidVersion (candidate : List Char)
  | headerDefineNotFound
  | manifestNotObject

/-- read_version_arg_or_file: resolve the candidate version from the explicit
argument if it is a non-empty string (Python truthiness of cli_version),
otherwise from the VERSION marker file, then validate it against SEMVER_RE. -/
def read_version_arg_or_file (versionFile : Option (List Char))
    (cliVersion : Option (List Char)) : Except ExitMsg (List Char) :=
  let cand : Except ExitMsg (List Char) :=
    match cliVersion with
    | some s =>
      if s.isEmpty then
        match versionFile with
        | none => .error .noVersionProvided
        | some content => .ok (pyStrip content)
      else .ok (pyStrip s)
    | none =>
      match versionFile with
      | none => .error .noVersionProvided
      | some content => .ok (pyStrip content)
  match cand with
  | .error e => .error e
  | .ok version =>
    if pyMatch version then .ok version else .error (.invalidVersion version)

/-! ## JSON manifest (library.json)

The manifest is read with json.loads, its version key is assigned and it is
rewritten with json.dumps(data, indent=2) plus a newline.  JSON values are
modelled by the inductive below; a parsed document is carried around as a
value, so a stored object round-trips unchanged through write and re-read,
matching json.loads after json.dumps.  JSON numbers are modelled as integers
(the manifest of this project holds only strings and nested objects and no
claim depends on float formatting). -/

inductive Json where
  | null
  | bool (b : Bool)
  | num (n : Int)
  | str (s : List Char)
  | arr (items : List Json)
  | obj (fields : List (List Char × Json))

/-- Lower-case hexadecimal digit, as produced by the json module. -/
def hexDigit (n : Nat) : Char :=
  if n < 10 then Char.ofNat (48 + n) else Char.ofNat (87 + n)

/-- Four hexadecimal digits of a code unit below 0x10000. -/
def hex4 (n : Nat) : List Char :=
  [hexDigit (n / 4096 % 16), hexDigit (n / 256 % 16), hexDigit (n / 16 % 16),
   hexDigit (n % 16)]

/-- The escaping json.dumps applies inside string literals with the default
ensure_ascii=True: two-character escapes for quote, backslash and common
control characters, backslash-u escapes for other control and all non-ASCII
characters (a surrogate pair above the basic plane). -/
def escapeChar (c : Char) : List Char :=
  if c == '"' then [ '\\', '"' ]
  else if c == '\\' then [ '\\', '\\' ]
  else if c == '\n' then [ '\\', 'n' ]
  else if c == '\r' then [ '\\', 'r' ]
  else if c == '\t' then [ '\\', 't' ]
  else if c == '\x08' then [ '\\', 'b' ]
  else if c == '\x0c' then [ '\\', 'f' ]
  else if c.val < 32 || c.val > 126 then
    if c.val < 65536 then '\\' :: 'u' :: hex4 c.val.toNat
    else
      let n := c.val.toNat - 65536
      ('\\' :: 'u' :: hex4 (55296 + n / 1024)) ++ '\\' :: 'u' :: hex4 (56320 + n % 1024)
  else [c]

/-- A JSON string literal as serialized by json.dumps. -/
def encodeStr (s : List Char) : List Char :=
  '"' :: (s.map escapeChar).flatten ++ ['"']

/-- Indentation prefix written by json.dumps with indent=2 at nesting level lvl. -/
def indentOf (lvl : Nat) : List Char := List.replicate (2 * lvl) ' '

mutual
/-- json.dumps(value, indent=2): each container item on its own line, item
separator comma, key separator colon space, empty containers inline. -/
def dumpJson (lvl : Nat) : Json → List Char
  | .null => strL "null"
  | .bool true => strL "true"
  | .bool false => strL "false"
  | .num n => (toString n).data
  | .str s => encodeStr s
  | .arr [] => [ '[', ']' ]
  | .arr (x :: xs) =>
    '[' :: '\n' :: (indentOf (lvl+1) ++ dumpJson (lvl+1) x ++ dumpItems (lvl+1) xs) ++
      '\n' :: indentOf lvl ++ [']']
  | .obj [] => [ '\x7b', '\x7d' ]
  | .obj (kv :: kvs) =>
    '\x7b' :: '\n' :: (indentOf (lvl+1) ++ dumpPair (lvl+1) kv ++ dumpFields (lvl+1) kvs) ++
      '\n' :: indentOf lvl ++ [ '\x7d' ]
/-- One key-value pair of an object. -/
def dumpPair (lvl : Nat) : List Char × Json → List Char
  | (k, v) => encodeStr k ++ ':' :: ' ' :: dumpJson lvl v
/-- Remaining array items, each preceded by a comma, a newline and indentation. -/
def dumpItems (lvl : Nat) : List Json → List Char
  | [] => []
  | x :: xs => ',' :: '\n' :: (indentOf lvl ++ dumpJson lvl x ++ dumpItems lvl xs)
/-- Remaining object fields, each preceded by a comma, a newline and indentation. -/
def dumpFields (lvl : Nat) : List (List Char × Json) → List Char
  | [] => []
  | kv :: kvs => ',' :: '\n' :: (indentOf lvl ++ dumpPair lvl kv ++ dumpFields lvl kvs)
end

/-- The bytes update_library_json writes: json.dumps(data, indent=2) + "\n". -/
def manifestDump (j : Json) : List Char := dumpJson 0 j ++ ['\n']

/-- Assignment data[k] = v on a Python dict kept as an insertion-ordered
association list: replace the value of an existing key in place, otherwise
append the new key at the end. -/
def dictSet (d : List (List Char × Json)) (k : List Char) (v : Json) :
    List (List Char × Json) :=
  match d with
  | [] => [(k, v)]
  | (k', v') :: rest => if k' = k then (k', v) :: rest else (k', v') :: dictSet rest k v

/-- Lookup of a key in the association-list model of a dict. -/
def lookupKey (d : List (List Char × Json)) (k : List Char) : Option Json :=
  match d with
  | [] => none
  | (k', v') :: rest => if k' = k then some v' else lookupKey rest k

/-- The keys of a dict in insertion order. -/
def keysOf (d : List (List Char × Json)) : List (List Char) := d.map Prod.fst

/-- Key membership in the dict model. -/
def containsKey (d : List (List Char × Json)) (k : List Char) : Bool :=
  (lookupKey d k).isSome

/-- The key "version". -/
def versionKey : List Char := ['v', 'e', 'r', 's', 'i', 'o', 'n']

/-- update_library_json: absent file is a skip returning false; an existing
file holds its parsed JSON document, data["version"] is assigned (raising a
TypeError when the document is not an object) and the file is rewritten.
The returned pair is the file state after the call and the reported bool. -/
def update_library_json (file : Option Json) (version : List Char) :
    Except ExitMsg (Option Json × Bool) :=
  match file with
  | none => .ok (none, false)
  | some (Json.obj fields) =>
    .ok (some (Json.obj (dictSet fields versionKey (Json.str version))), true)
  | some _ => .error .manifestNotObject

/-! ## Properties file (library.properties) -/

/-- Worker of Python str.splitlines: cur holds the characters of the current
line in reverse; a carriage return followed by a newline counts as a single
boundary, handled by the afterCR flag which is set right after a carriage
return ended a line so that one immediately following newline is skipped; a
trailing boundary does not open a final empty line. -/
def pySplitlinesAux : List Char → List Char → Bool → List (List Char)
  | [], cur, _ => if cur.isEmpty then [] else [cur.reverse]
  | c :: rest, cur, afterCR =>
    if afterCR && c == '\n' then pySplitlinesAux rest [] false
    else if c == '\r' then cur.reverse :: pySplitlinesAux rest [] true
    else if isLineBreak c then cur.reverse :: pySplitlinesAux rest [] false
    else pySplitlinesAux rest (c :: cur) false

/-- Python str.splitlines(). -/
def pySplitlines (l : List Char) : List (List Char) := pySplitlinesAux l [] false

/-- "\n".join(lines). -/
def joinNL : List (List Char) → List Char
  | [] => []
  | [a] => a
  | a :: rest => a ++ '\n' :: joinNL rest

/-- The literal prefix "version=" looked for in library.properties. -/
def versionEq : List Char := ['v', 'e', 'r', 's', 'i', 'o', 'n', '=']

/-- The loop of update_library_properties: rewrite the first line starting
with "version=" and stop; none returned when no line matches. -/
def setVersionLine (lines : List (List Char)) (version : List Char) :
    Option (List (List Char)) :=
  match lines with
  | [] => none
  | line :: rest =>
    if versionEq.isPrefixOf line then some ((versionEq ++ version) :: rest)
    else (setVersionLine rest version).map (fun ls => line :: ls)

/-- The new content update_library_properties writes for an existing file:
splitlines, rewrite the first version= line or append one, join with
newlines and add a trailing newline. -/
def updatePropsContent (content : List Char) (version : List Char) : List Char :=
  let lines := pySplitlines content
  let lines2 :=
    match setVersionLine lines version with
    | some ls => ls
    | none => lines ++ [versionEq ++ version]
  joinNL lines2 ++ ['\n']

/-- update_library_properties: absent file is a skip returning false,
otherwise the content is rewritten and true is returned. -/
def update_library_properties (file : Option (List Char)) (version : List Char) :
    Option (List Char) × Bool :=
  match file with
  | none => (none, false)
  | some content => (some (updatePropsContent content version), true)

/-! ## Header file (src/IS31FL373x.h)

The regex (#define backslash-s+ IS31FL373X_VERSION backslash-s+)
quote [^quote]* quote is compiled once; pattern.search gates a fatal error
and pattern.sub replaces the leftmost non-overlapping occurrences from left
to right, keeping group 1 and substituting the quoted value. -/

/-- Consume an exact literal from the front of a list. -/
def dropLit : List Char → List Char → Option (List Char)
  | [], l => some l
  | _ :: _, [] => none
  | c :: lit, x :: l => if x = c then dropLit lit l else none

/-- The literal "#define". -/
def defineLit : List Char := ['#', 'd', 'e', 'f', 'i', 'n', 'e']

/-- The literal "IS31FL373X_VERSION". -/
def nameLit : List Char :=
  ['I', 'S', '3', '1', 'F', 'L', '3', '7', '3', 'X', '_', 'V', 'E', 'R', 'S',
   'I', 'O', 'N']

/-- Group 1 of the header regex: the define keyword, whitespace, the macro
name and the whitespace before the quoted value. -/
def groupOne (w1 w2 : List Char) : List Char := defineLit ++ w1 ++ nameLit ++ w2

/-- Attempt to match the header regex at the start of the list.  On success
returns group 1, the quoted value and the remainder after the closing quote.
Greedy repetition needs no backtracking here because each repeated class
excludes the character that follows it. -/
def tryMatchDefine (l : List Char) : Option (List Char × List Char × List Char) :=
  match dropLit defineLit l with
  | none => none
  | some r1 =>
    if (r1.takeWhile isPySpace).isEmpty then none
    else
      match dropLit nameLit (r1.dropWhile isPySpace) with
      | none => none
      | some r3 =>
        if (r3.takeWhile isPySpace).isEmpty then none
        else
          match r3.dropWhile isPySpace with
          | [] => none
          | c4 :: r5 =>
            if c4 == '"' then
              match r5.dropWhile (fun c => c != '"') with
              | [] => none
              | _ :: r6 =>
                some (defineLit ++ r1.takeWhile isPySpace ++ nameLit ++
                  r3.takeWhile isPySpace, r5.takeWhile (fun c => c != '"'), r6)
            else none

/-- The leftmost match of the header regex: the unmatched text before it,
group 1, the quoted value and the remainder after the match. -/
def firstMatchDefine : List Char →
    Option (List Char × List Char × List Char × List Char)
  | [] => none
  | c :: rest =>
    match tryMatchDefine (c :: rest) with
    | some (g, val, after) => some ([], g, val, after)
    | none => (firstMatchDefine rest).map (fun p => (c :: p.1, p.2))

/-- pattern.search(content) succeeds exactly when a leftmost match exists. -/
def searchDefine (l : List Char) : Bool := (firstMatchDefine l).isSome

/-- Fuelled worker for pattern.sub: replace the leftmost match, keep group 1,
substitute the quoted value and continue after the match.  The fuel only
serves structural termination; any fuel at least the length of the list
computes the replacement (shown by subDefineFuel_congr below). -/
def subDefineFuel : Nat → List Char → List Char → List Char
  | 0, _, l => l
  | fuel + 1, v, l =>
    match firstMatchDefine l with
    | none => l
    | some (u, g, _, after) =>
      u ++ g ++ '"' :: v ++ '"' :: subDefineFuel fuel v after

/-- pattern.sub(repl, content): replace every non-overlapping occurrence from
left to right. -/
def subDefine (v : List Char) (l : List Char) : List Char :=
  subDefineFuel l.length v l

/-- update_header_define: absent file is a skip returning false; an existing
file without any match of the macro pattern is a fatal error raised before
any write, so the file keeps its content; otherwise every occurrence is
substituted and true is returned. -/
def update_header_define (file : Option (List Char)) (version : List Char) :
    Except ExitMsg (Option (List Char) × Bool) :=
  match file with
  | none => .ok (none, false)
  | some content =>
    if searchDefine content then .ok (some (subDefine version content), true)
    else .error .headerDefineNotFound

/-! ## Orchestration (main) -/

/-- The files touched by the script: the VERSION marker, library.json (kept
as its parsed document), library.properties and src/IS31FL373x.h.  none is
an absent file. -/
structure FsState where
  versionFile : Option (List Char)
  libraryJson : Option Json
  libraryProps : Option (List Char)
  headerFile : Option (List Char)

/-- Outcome of one invocation: the final file state, the process exit code
(0 on success, 1 for a terminating error), the error if one was raised and
whether the no-targets warning was printed. -/
structure MainResult where
  fs : FsState
  exitCode : Nat
  err : Option ExitMsg
  warnedNoTargets : Bool

/-- main(argv): resolve and validate the version, overwrite the VERSION
marker with the version plus a newline, then run the three updaters in order
(manifest, properties, header), warn when none of them wrote, and exit 0.
A terminating error leaves the files already written in place. -/
def main (st : FsState) (arg : Option (List Char)) : MainResult :=
  match read_version_arg_or_file st.versionFile arg with
  | .error e => ⟨st, 1, some e, false⟩
  | .ok version =>
    let st1 := { st with versionFile := some (version ++ ['\n']) }
    match update_library_json st1.libraryJson version with
    | .error e => ⟨st1, 1, some e, false⟩
    | .ok (mj, b1) =>
      let st2 := { st1 with libraryJson := mj }
      let (mp, b2) := update_library_properties st2.libraryProps version
      let st3 := { st2 with libraryProps := mp }
      match update_header_define st3.headerFile version with
      | .error e => ⟨st3, 1, some e, false⟩
      | .ok (mh, b3) =>
        ⟨{ st3 with headerFile := mh }, 0, none, !(b1 || b2 || b3)⟩

/-! ## Generic list lemmas -/

theorem dropWhile_eq_self_of {p : Char → Bool} {l : List Char}
    (h : ∀ c ∈ l, p c = false) : l.dropWhile p = l := by
  cases l with
  | nil => rfl
  | cons c rest =>
    have hc := h c (List.mem_cons_self c rest)
    simp [List.dropWhile, hc]

theorem dropWhile_head_false {p : Char → Bool} {l r : List Char} {c : Char}
    (h : l.dropWhile p = c :: r) : p c = false := by
  induction l with
  | nil => simp at h
  | cons a rest ih =>
    by_cases ha : p a
    · rw [List.dropWhile_cons_of_pos ha] at h; exact ih h
    · rw [List.dropWhile_cons_of_neg ha] at h
      cases h; simpa using ha

theorem takeWhile_append_of {p : Char → Bool} {l : List Char} {c : Char}
    (hl : ∀ x ∈ l, p x = true) (hc : p c = false) (r : List Char) :
    (l ++ c :: r).takeWhile p = l ∧ (l ++ c :: r).dropWhile p = c :: r := by
  induction l with
  | nil => simp [List.takeWhile, List.dropWhile, hc]
  | cons a rest ih =>
    have ha := hl a (List.mem_cons_self a rest)
    have := ih (fun x hx => hl x (List.mem_cons_of_mem a hx))
    simp [List.takeWhile, List.dropWhile, ha, this.1, this.2]

theorem dropLit_eq {lit l r : List Char} (h : dropLit lit l = some r) :
    l = lit ++ r := by
  induction lit generalizing l with
  | nil => simpa [dropLit] using h
  | cons c lit ih =>
    cases l with
    | nil => simp [dropLit] at h
    | cons x xs =>
      by_cases hx : x = c
      · subst hx; simp only [dropLit, if_pos rfl] at h
        simpa using ih h
      · simp [dropLit, hx] at h

theorem dropLit_append (lit r : List Char) : dropLit lit (lit ++ r) = some r := by
  induction lit with
  | nil => rfl
  | cons c lit ih => simp [dropLit, ih]

/-- Splitting a list at the first occurrence of a character is unambiguous. -/
theorem first_occ_unique {c : Char} {x y x' y' : List Char}
    (hx : ∀ a ∈ x, a ≠ c) (hx' : ∀ a ∈ x', a ≠ c)
    (h : x ++ c :: y = x' ++ c :: y') : x = x' ∧ y = y' := by
  induction x generalizing x' with
  | nil =>
    cases x' with
    | nil => simpa using h
    | cons b x'' =>
      simp only [List.nil_append, List.cons_append, List.cons.injEq] at h
      exact absurd h.1.symm (hx' b (List.mem_cons_self b x''))
  | cons a x ih =>
    cases x' with
    | nil =>
      simp only [List.cons_append, List.nil_append, List.cons.injEq] at h
      exact absurd h.1 (hx a (List.mem_cons_self a x))
    | cons b x'' =>
      simp only [List.cons_append, List.cons.injEq] at h
      obtain ⟨hab, hrest⟩ := h
      have := ih (fun u hu => hx u (List.mem_cons_of_mem a hu))
        (fun u hu => hx' u (List.mem_cons_of_mem b hu)) hrest
      exact ⟨by rw [hab, this.1], this.2⟩

/-- Every list either avoids a character or splits at its first occurrence. -/
theorem split_first_occ (A : List Char) (c : Char) :
    (∀ a ∈ A, a ≠ c) ∨ ∃ A1 A2, A = A1 ++ c :: A2 ∧ ∀ a ∈ A1, a ≠ c := by
  induction A with
  | nil => exact Or.inl (by simp)
  | cons a A ih =>
    by_cases hac : a = c
    · subst hac
      exact Or.inr ⟨[], A, rfl, by simp⟩
    · rcases ih with hall | ⟨A1, A2, hEq, hA1⟩
      · refine Or.inl ?_
        intro x hx
        rcases List.mem_cons.mp hx with h | h
        · exact h ▸ hac
        · exact hall x h
      · refine Or.inr ⟨a :: A1, A2, by rw [hEq]; rfl, ?_⟩
        intro x hx
        rcases List.mem_cons.mp hx with h | h
        · exact h ▸ hac
        · exact hA1 x h

/-! ## Facts about valid version strings -/

theorem semverCore_mem {l : List Char} (h : semverCore l = true) :
    ∀ c ∈ l, c.val.toNat = 46 ∨ (48 ≤ c.val.toNat ∧ c.val.toNat ≤ 57) := by
  have digitVal : ∀ c : Char, isAsciiDigit c = true →
      48 ≤ c.val.toNat ∧ c.val.toNat ≤ 57 := by
    intro c hc
    simp only [isAsciiDigit, Bool.and_eq_true, decide_eq_true_eq] at hc
    exact ⟨hc.1, hc.2⟩
  simp only [semverCore, Bool.and_eq_true, Bool.not_eq_true'] at h
  obtain ⟨h1, h2⟩ := h
  intro c hc
  have hsplit1 := List.takeWhile_append_dropWhile isAsciiDigit l
  rw [← hsplit1] at hc
  rcases List.mem_append.mp hc with hc1 | hc2
  · exact Or.inr (digitVal c (List.mem_takeWhile_imp hc1))
  · revert h2
    cases hd1 : l.dropWhile isAsciiDigit with
    | nil => simp [hd1] at hc2
    | cons d r2 =>
      rw [hd1] at hc2
      intro h2
      split at h2
      next r2' heq =>
        rw [heq] at hc2
        rcases List.mem_cons.mp hc2 with hdot | hc3
        · exact Or.inl (by rw [hdot]; rfl)
        · simp only [Bool.and_eq_true, Bool.not_eq_true'] at h2
          obtain ⟨h3, h4⟩ := h2
          have hsplit2 := List.takeWhile_append_dropWhile isAsciiDigit r2'
          rw [← hsplit2] at hc3
          rcases List.mem_append.mp hc3 with hc4 | hc5
          · exact Or.inr (digitVal c (List.mem_takeWhile_imp hc4))
          · revert h4
            cases hd2 : r2'.dropWhile isAsciiDigit with
            | nil => simp [hd2] at hc5
            | cons e r4 =>
              rw [hd2] at hc5
              intro h4
              split at h4
              next r4' heq2 =>
                rw [heq2] at hc5
                rcases List.mem_cons.mp hc5 with hdot2 | hc6
                · exact Or.inl (by rw [hdot2]; rfl)
                · simp only [Bool.and_eq_true, Bool.not_eq_true'] at h4
                  obtain ⟨h5, h6⟩ := h4
                  have h6' : r4'.dropWhile isAsciiDigit = [] := by simpa using h6
                  have hsplit3 := List.takeWhile_append_dropWhile isAsciiDigit r4'
                  rw [← hsplit3, h6', List.append_nil] at hc6
                  exact Or.inr (digitVal c (List.mem_takeWhile_imp hc6))
              next => simp at h4
      next => simp at h2

theorem semverCore_ne_nil {l : List Char} (h : semverCore l = true) : l ≠ [] := by
  intro hnil
  subst hnil
  simp [semverCore, List.takeWhile] at h

/-- Characters of a valid version are never whitespace, line breaks, quotes
or hash marks. -/
theorem semver_char_safe {l : List Char} (h : semverCore l = true) :
    ∀ c ∈ l, isPySpace c = false ∧ isLineBreak c = false ∧ (c != '"') = true ∧
      c ≠ '#' := by
  intro c hc
  have hv := semverCore_mem h c hc
  have hfalse : ∀ d : Char, d.val.toNat < 46 ∨ d.val.toNat = 47 ∨ 57 < d.val.toNat →
      ¬ c = d := by
    intro d hd hEq
    rw [hEq] at hv
    omega
  refine ⟨?_, ?_, ?_, ?_⟩
  · simp only [isPySpace, Bool.or_eq_false_iff, beq_eq_false_iff_ne, ne_eq]
    refine ⟨⟨⟨⟨⟨?_, ?_⟩, ?_⟩, ?_⟩, ?_⟩, ?_⟩ <;> exact hfalse _ (by decide)
  · simp only [isLineBreak, Bool.or_eq_false_iff, beq_eq_false_iff_ne, ne_eq]
    refine ⟨⟨⟨⟨⟨⟨⟨⟨⟨?_, ?_⟩, ?_⟩, ?_⟩, ?_⟩, ?_⟩, ?_⟩, ?_⟩, ?_⟩, ?_⟩ <;>
      exact hfalse _ (by decide)
  · simp only [bne_iff_ne, ne_eq]
    exact hfalse _ (by decide)
  · exact hfalse _ (by decide)

theorem pyStrip_semver {l : List Char} (h : semverCore l = true) : pyStrip l = l := by
  have hs : ∀ c ∈ l, isPySpace c = false := fun c hc => (semver_char_safe h c hc).1
  have h1 : l.dropWhile isPySpace = l := dropWhile_eq_self_of hs
  have h2 : l.reverse.dropWhile isPySpace = l.reverse :=
    dropWhile_eq_self_of (fun c hc => hs c (List.mem_reverse.mp hc))
  simp [pyStrip, h1, h2]

/-- Resolution with a valid explicit argument succeeds and returns it
unchanged, whatever the state of the marker file. -/
theorem resolve_ok {v : List Char} (h : semverCore v = true)
    (vf : Option (List Char)) :
    read_version_arg_or_file vf (some v) = .ok v := by
  have hne : v.isEmpty = false := by
    cases v with
    | nil => exact absurd rfl (semverCore_ne_nil h)
    | cons a l => rfl
  have hstrip := pyStrip_semver h
  have hmatch : pyMatch v = true := by simp [pyMatch, h]
  simp [read_version_arg_or_file, hne, hstrip, hmatch]

/-- Resolution with a non-empty explicit argument whose trimmed form is not a
valid version fails fatally, echoing the trimmed candidate, whatever the
state of the marker file. -/
theorem resolve_invalid {s : List Char} (hne : s ≠ [])
    (h : pyMatch (pyStrip s) = false) (vf : Option (List Char)) :
    read_version_arg_or_file vf (some s) = .error (.invalidVersion (pyStrip s)) := by
  have hempty : s.isEmpty = false := by
    cases s with
    | nil => exact absurd rfl hne
    | cons a l => rfl
  simp [read_version_arg_or_file, hempty, h]

/-! ## Lemmas about splitlines and the properties updater -/

theorem splitlinesAux_cons_nobreak {c : Char} (hc : isLineBreak c = false)
    (l cur : List Char) (flag : Bool) :
    pySplitlinesAux (c :: l) cur flag = pySplitlinesAux l (c :: cur) false := by
  have hn : (c == '\n') = false := by
    cases hEq : c == '\n'
    · rfl
    · rw [eq_of_beq hEq] at hc
      simp [isLineBreak] at hc
  have hr : (c == '\r') = false := by
    cases hEq : c == '\r'
    · rfl
    · rw [eq_of_beq hEq] at hc
      simp [isLineBreak] at hc
  simp [pySplitlinesAux, hn, hr, hc]

theorem splitlinesAux_nl (rest cur : List Char) :
    pySplitlinesAux ('\n' :: rest) cur false =
      cur.reverse :: pySplitlinesAux rest [] false := by
  simp [pySplitlinesAux, isLineBreak]

theorem splitlinesAux_shift {a : List Char}
    (ha : ∀ c ∈ a, isLineBreak c = false) (rest cur : List Char) :
    pySplitlinesAux (a ++ rest) cur false =
      pySplitlinesAux rest (a.reverse ++ cur) false := by
  induction a generalizing cur with
  | nil => simp
  | cons c a' ih =>
    have hc := ha c (List.mem_cons_self c a')
    rw [List.cons_append, splitlinesAux_cons_nobreak hc,
      ih (fun x hx => ha x (List.mem_cons_of_mem c hx)), List.reverse_cons,
      List.append_assoc, List.singleton_append]

theorem splitlines_roundtrip {lines : List (List Char)} (hne : lines ≠ [])
    (hnb : ∀ line ∈ lines, ∀ c ∈ line, isLineBreak c = false) :
    pySplitlines (joinNL lines ++ ['\n']) = lines := by
  induction lines with
  | nil => exact absurd rfl hne
  | cons a rest ih =>
    cases rest with
    | nil =>
      show pySplitlinesAux (joinNL [a] ++ ['\n']) [] false = [a]
      have hna : ∀ c ∈ a, isLineBreak c = false :=
        hnb a (List.mem_cons_self a [])
      rw [show joinNL [a] = a from rfl, splitlinesAux_shift hna, splitlinesAux_nl]
      simp [pySplitlinesAux]
    | cons b rest' =>
      show pySplitlinesAux (joinNL (a :: b :: rest') ++ ['\n']) [] false =
        a :: b :: rest'
      have hna : ∀ c ∈ a, isLineBreak c = false :=
        hnb a (List.mem_cons_self a (b :: rest'))
      have hjoin : joinNL (a :: b :: rest') = a ++ '\n' :: joinNL (b :: rest') := by
        simp [joinNL]
      rw [hjoin, List.append_assoc, List.cons_append,
        splitlinesAux_shift hna, splitlinesAux_nl]
      simp only [List.append_nil, List.reverse_reverse]
      have := ih (by simp)
        (fun line hline => hnb line (List.mem_cons_of_mem a hline))
      exact congrArg (a :: ·) this

theorem splitlinesAux_nobreak : ∀ (l cur : List Char) (flag : Bool),
    (∀ c ∈ cur, isLineBreak c = false) →
    ∀ line ∈ pySplitlinesAux l cur flag, ∀ c ∈ line, isLineBreak c = false := by
  intro l
  induction l with
  | nil =>
    intro cur flag hcur line hline
    by_cases hc : cur.isEmpty
    · simp [pySplitlinesAux, hc] at hline
    · simp [pySplitlinesAux, hc] at hline
      intro c hcl
      exact hcur c (by rw [hline] at hcl; exact List.mem_reverse.mp hcl)
  | cons c rest ih =>
    intro cur flag hcur line hline
    by_cases h1 : (flag && c == '\n') = true
    · rw [show pySplitlinesAux (c :: rest) cur flag = pySplitlinesAux rest [] false
        from by simp [pySplitlinesAux, h1]] at hline
      exact ih [] false (by simp) line hline
    · by_cases h2 : (c == '\r') = true
      · rw [show pySplitlinesAux (c :: rest) cur flag =
            cur.reverse :: pySplitlinesAux rest [] true
          from by simp [pySplitlinesAux, h1, h2]] at hline
        rcases List.mem_cons.mp hline with hl | hl
        · intro x hx
          exact hcur x (by rw [hl] at hx; exact List.mem_reverse.mp hx)
        · exact ih [] true (by simp) line hl
      · by_cases h3 : isLineBreak c = true
        · rw [show pySplitlinesAux (c :: rest) cur flag =
              cur.reverse :: pySplitlinesAux rest [] false
            from by simp [pySplitlinesAux, h1, h2, h3]] at hline
          rcases List.mem_cons.mp hline with hl | hl
          · intro x hx
            exact hcur x (by rw [hl] at hx; exact List.mem_reverse.mp hx)
          · exact ih [] false (by simp) line hl
        · rw [show pySplitlinesAux (c :: rest) cur flag =
              pySplitlinesAux rest (c :: cur) false
            from by simp [pySplitlinesAux, h1, h2, h3]] at hline
          refine ih (c :: cur) false ?_ line hline
          intro x hx
          rcases List.mem_cons.mp hx with hxc | hxc
          · rw [hxc]
            exact Bool.not_eq_true _ ▸ (by simpa using h3)
          · exact hcur x hxc

/-- Every line produced by splitlines is free of line-break characters. -/
theorem splitlines_nobreak (content : List Char) :
    ∀ line ∈ pySplitlines content, ∀ c ∈ line, isLineBreak c = false :=
  splitlinesAux_nobreak content [] false (by simp)

theorem setVersionLine_cons (line : List Char) (rest : List (List Char))
    (v : List Char) :
    setVersionLine (line :: rest) v =
      if versionEq.isPrefixOf line then some ((versionEq ++ v) :: rest)
      else (setVersionLine rest v).map (fun ls => line :: ls) := rfl

theorem isPrefixOf_self_append (l r : List Char) : l.isPrefixOf (l ++ r) = true := by
  induction l with
  | nil => simp [List.isPrefixOf]
  | cons c l ih => simp [List.isPrefixOf, ih]

/-- The loop rewrites exactly the first line carrying the version= marker. -/
theorem setVersionLine_first {l1 : List (List Char)} {hd : List Char}
    (h1 : ∀ x ∈ l1, versionEq.isPrefixOf x = false)
    (hhd : versionEq.isPrefixOf hd = true) (l2 : List (List Char)) (v : List Char) :
    setVersionLine (l1 ++ hd :: l2) v = some (l1 ++ (versionEq ++ v) :: l2) := by
  induction l1 with
  | nil => simp [setVersionLine, hhd]
  | cons a l1' ih =>
    have ha := h1 a (List.mem_cons_self a l1')
    simp [setVersionLine, ha, ih (fun x hx => h1 x (List.mem_cons_of_mem a hx))]

/-- The loop finds nothing when no line carries the version= marker. -/
theorem setVersionLine_none {lines : List (List Char)}
    (h : ∀ x ∈ lines, versionEq.isPrefixOf x = false) (v : List Char) :
    setVersionLine lines v = none := by
  induction lines with
  | nil => rfl
  | cons a rest ih =>
    have ha := h a (List.mem_cons_self a rest)
    simp [setVersionLine, ha, ih (fun x hx => h x (List.mem_cons_of_mem a hx))]

theorem setVersionLine_some_ne_nil {lines ls : List (List Char)} {v : List Char}
    (h : setVersionLine lines v = some ls) : ls ≠ [] := by
  cases lines with
  | nil => simp [setVersionLine] at h
  | cons line rest =>
    by_cases hp : versionEq.isPrefixOf line = true
    · simp [setVersionLine, hp] at h
      rw [← h]
      simp
    · simp [setVersionLine, hp] at h
      obtain ⟨ls', _, h2⟩ := h
      rw [← h2]
      simp

theorem setVersionLine_mem {lines ls : List (List Char)} {v : List Char}
    (h : setVersionLine lines v = some ls) :
    ∀ x ∈ ls, x ∈ lines ∨ x = versionEq ++ v := by
  induction lines generalizing ls with
  | nil => simp [setVersionLine] at h
  | cons line rest ih =>
    by_cases hp : versionEq.isPrefixOf line = true
    · simp [setVersionLine, hp] at h
      rw [← h]
      intro x hx
      rcases List.mem_cons.mp hx with hx1 | hx1
      · exact Or.inr hx1
      · exact Or.inl (List.mem_cons_of_mem line hx1)
    · simp [setVersionLine, hp] at h
      obtain ⟨ls', hrec, h2⟩ := h
      rw [← h2]
      intro x hx
      rcases List.mem_cons.mp hx with hx1 | hx1
      · exact Or.inl (hx1 ▸ List.mem_cons_self line rest)
      · rcases ih hrec x hx1 with hm | hm
        · exact Or.inl (List.mem_cons_of_mem line hm)
        · exact Or.inr hm

/-- Rewriting the version line a second time changes nothing. -/
theorem setVersionLine_idem {lines ls : List (List Char)} {v : List Char}
    (h : setVersionLine lines v = some ls) : setVersionLine ls v = some ls := by
  induction lines generalizing ls with
  | nil => simp [setVersionLine] at h
  | cons line rest ih =>
    by_cases hp : versionEq.isPrefixOf line = true
    · simp [setVersionLine, hp] at h
      rw [← h]
      simp [setVersionLine, isPrefixOf_self_append]
    · simp [setVersionLine, hp] at h
      obtain ⟨ls', hrec, h2⟩ := h
      rw [← h2]
      simp [setVersionLine, hp, ih hrec]

/-- After appending the fresh version line, the loop finds it and rewrites it
to itself. -/
theorem setVersionLine_append_self {lines : List (List Char)} {v : List Char}
    (h : setVersionLine lines v = none) :
    setVersionLine (lines ++ [versionEq ++ v]) v =
      some (lines ++ [versionEq ++ v]) := by
  induction lines with
  | nil => simp [setVersionLine, isPrefixOf_self_append]
  | cons line rest ih =>
    rw [setVersionLine_cons] at h
    by_cases hp : versionEq.isPrefixOf line = true
    · rw [if_pos hp] at h
      exact absurd h (by simp)
    · rw [if_neg hp] at h
      have hnone : setVersionLine rest v = none := by
        cases hr : setVersionLine rest v with
        | none => rfl
        | some ls => rw [hr] at h; simp at h
      rw [List.cons_append, setVersionLine_cons, if_neg hp, ih hnone]
      rfl

/-- The lines written by the properties updater carry no line breaks. -/
theorem updatePropsLines_nobreak (content : List Char) {v : List Char}
    (hv : ∀ c ∈ v, isLineBreak c = false) :
    ∀ line ∈ (match setVersionLine (pySplitlines content) v with
      | some ls => ls
      | none => pySplitlines content ++ [versionEq ++ v]),
      ∀ c ∈ line, isLineBreak c = false := by
  have hnb := splitlines_nobreak content
  have hvline : ∀ c ∈ versionEq ++ v, isLineBreak c = false := by
    intro c hc
    rcases List.mem_append.mp hc with h | h
    · fin_cases h <;> decide
    · exact hv c h
  cases hset : setVersionLine (pySplitlines content) v with
  | some ls =>
    intro line hline
    rcases setVersionLine_mem hset line hline with hm | hm
    · exact hnb line hm
    · rw [hm]; exact hvline
  | none =>
    intro line hline
    rcases List.mem_append.mp hline with hm | hm
    · exact hnb line hm
    · rw [List.mem_singleton.mp hm]; exact hvline

/-- Applying the properties rewrite twice with the same version yields the
same bytes as applying it once. -/
theorem updatePropsContent_idem {content v : List Char}
    (hv : ∀ c ∈ v, isLineBreak c = false) :
    updatePropsContent (updatePropsContent content v) v =
      updatePropsContent content v := by
  have hnb := updatePropsLines_nobreak content hv
  unfold updatePropsContent
  cases hset : setVersionLine (pySplitlines content) v with
  | some ls =>
    have hnbls : ∀ line ∈ ls, ∀ c ∈ line, isLineBreak c = false := by
      intro line hline
      exact hnb line (by rw [hset]; exact hline)
    have hrt : pySplitlines (joinNL ls ++ ['\n']) = ls :=
      splitlines_roundtrip (setVersionLine_some_ne_nil hset) hnbls
    simp only [hset, hrt, setVersionLine_idem hset]
  | none =>
    have hnbls : ∀ line ∈ pySplitlines content ++ [versionEq ++ v],
        ∀ c ∈ line, isLineBreak c = false := by
      intro line hline
      exact hnb line (by rw [hset]; exact hline)
    have hrt : pySplitlines (joinNL (pySplitlines content ++ [versionEq ++ v]) ++ ['\n']) =
        pySplitlines content ++ [versionEq ++ v] :=
      splitlines_roundtrip (by simp) hnbls
    simp only [hset, hrt, setVersionLine_append_self hset]

/-! ## Lemmas about the manifest updater -/

theorem lookupKey_dictSet_self (d : List (List Char × Json)) (k : List Char)
    (v : Json) : lookupKey (dictSet d k v) k = some v := by
  induction d with
  | nil => simp [dictSet, lookupKey]
  | cons kv rest ih =>
    by_cases hk : kv.1 = k
    · simp [dictSet, lookupKey, hk]
    · simp [dictSet, lookupKey, hk, ih]

theorem lookupKey_dictSet_other {k k2 : List Char} (hne : k2 ≠ k)
    (d : List (List Char × Json)) (v : Json) :
    lookupKey (dictSet d k v) k2 = lookupKey d k2 := by
  have hne' : ¬ k = k2 := fun h => hne h.symm
  induction d with
  | nil => simp [dictSet, lookupKey, hne']
  | cons kv rest ih =>
    obtain ⟨k1, v1⟩ := kv
    by_cases hk : k1 = k
    · have hkv : ¬ k1 = k2 := by rw [hk]; exact hne'
      simp [dictSet, lookupKey, hk, hkv, hne']
    · by_cases hk2 : k1 = k2
      · subst hk2
        simp [dictSet, lookupKey, hk]
      · simp [dictSet, lookupKey, hk, hk2, ih]

theorem keysOf_dictSet (d : List (List Char × Json)) (k : List Char) (v : Json) :
    keysOf (dictSet d k v) =
      if containsKey d k then keysOf d else keysOf d ++ [k] := by
  induction d with
  | nil => simp [dictSet, keysOf, containsKey, lookupKey]
  | cons kv rest ih =>
    by_cases hk : kv.1 = k
    · simp [dictSet, keysOf, containsKey, lookupKey, hk]
    · simp only [dictSet, keysOf, containsKey, lookupKey] at ih ⊢
      rw [if_neg hk, if_neg hk]
      by_cases hc : (lookupKey rest k).isSome = true
      · simp only [hc, if_pos] at ih ⊢
        simp [List.map_cons, ih]
      · simp only [Bool.not_eq_true] at hc
        simp only [hc, Bool.false_eq_true, if_false] at ih ⊢
        simp [List.map_cons, ih]

theorem dictSet_idem (d : List (List Char × Json)) (k : List Char) (v : Json) :
    dictSet (dictSet d k v) k v = dictSet d k v := by
  induction d with
  | nil => simp [dictSet]
  | cons kv rest ih =>
    by_cases hk : kv.1 = k
    · simp [dictSet, hk]
    · simp [dictSet, hk, ih]

/-- Running the manifest updater on its own output changes nothing. -/
theorem update_library_json_idem {mj mj2 : Option Json} {v : List Char} {b : Bool}
    (h : update_library_json mj v = .ok (mj2, b)) :
    update_library_json mj2 v = .ok (mj2, b) := by
  cases mj with
  | none =>
    simp only [update_library_json] at h
    cases h
    rfl
  | some j =>
    cases j with
    | obj fields =>
      simp only [update_library_json] at h
      cases h
      simp [update_library_json, dictSet_idem]
    | null => simp [update_library_json] at h
    | bool b2 => simp [update_library_json] at h
    | num n => simp [update_library_json] at h
    | str s => simp [update_library_json] at h
    | arr xs => simp [update_library_json] at h

/-! ## Lemmas about the header regex -/

theorem pySpace_ne_quote {c : Char} (h : isPySpace c = true) : (c != '"') = true := by
  simp only [isPySpace, Bool.or_eq_true, beq_iff_eq] at h
  rcases h with ((((h | h) | h) | h) | h) | h <;> subst h <;> decide

theorem isEmpty_false_ne_nil {l : List Char} (h : l.isEmpty = false) : l ≠ [] := by
  cases l with
  | nil => simp at h
  | cons a t => simp

theorem ne_nil_isEmpty_false {l : List Char} (h : l ≠ []) : l.isEmpty = false := by
  cases l with
  | nil => exact absurd rfl h
  | cons a t => rfl

theorem takeWhile_space_before_name {w : List Char}
    (hw : ∀ x ∈ w, isPySpace x = true) (Z : List Char) :
    (w ++ (nameLit ++ Z)).takeWhile isPySpace = w ∧
      (w ++ (nameLit ++ Z)).dropWhile isPySpace = nameLit ++ Z :=
  takeWhile_append_of hw (by decide : isPySpace 'I' = false) (nameLit.tail ++ Z)

theorem takeWhile_space_before_quote {w : List Char}
    (hw : ∀ x ∈ w, isPySpace x = true) (Z : List Char) :
    (w ++ '"' :: Z).takeWhile isPySpace = w ∧
      (w ++ '"' :: Z).dropWhile isPySpace = '"' :: Z :=
  takeWhile_append_of hw (by decide : isPySpace '"' = false) Z

/-- A match of the header regex succeeds on any text of the matched shape. -/
theorem tryMatchDefine_build {w1 w2 val : List Char}
    (hw1 : w1 ≠ []) (hw1s : ∀ c ∈ w1, isPySpace c = true)
    (hw2 : w2 ≠ []) (hw2s : ∀ c ∈ w2, isPySpace c = true)
    (hval : ∀ c ∈ val, (c != '"') = true) (r : List Char) :
    tryMatchDefine (groupOne w1 w2 ++ '"' :: val ++ '"' :: r) =
      some (groupOne w1 w2, val, r) := by
  have e1 : dropLit defineLit
      (defineLit ++ (w1 ++ (nameLit ++ (w2 ++ '"' :: (val ++ '"' :: r))))) =
      some (w1 ++ (nameLit ++ (w2 ++ '"' :: (val ++ '"' :: r)))) :=
    dropLit_append _ _
  have e2 := takeWhile_space_before_name hw1s (w2 ++ '"' :: (val ++ '"' :: r))
  have e3 : dropLit nameLit (nameLit ++ (w2 ++ '"' :: (val ++ '"' :: r))) =
      some (w2 ++ '"' :: (val ++ '"' :: r)) := dropLit_append _ _
  have e4 := takeWhile_space_before_quote hw2s (val ++ '"' :: r)
  have e5 := takeWhile_append_of hval (show ('"' != '"') = false by decide) r
  have hw1e : w1.isEmpty = false := ne_nil_isEmpty_false hw1
  have hw2e : w2.isEmpty = false := ne_nil_isEmpty_false hw2
  simp only [groupOne, List.append_assoc, List.cons_append]
  unfold tryMatchDefine
  rw [e1]
  simp only [e2.1, e2.2, e3, e4.1, e4.2, e5.1, e5.2, hw1e, hw2e]
  simp [List.append_assoc]

/-- Any successful match of the header regex decomposes the input into the
matched shape. -/
theorem tryMatchDefine_inv {s g val r : List Char}
    (h : tryMatchDefine s = some (g, val, r)) :
    ∃ w1 w2, g = groupOne w1 w2 ∧
      s = groupOne w1 w2 ++ '"' :: val ++ '"' :: r ∧
      w1 ≠ [] ∧ (∀ c ∈ w1, isPySpace c = true) ∧
      w2 ≠ [] ∧ (∀ c ∈ w2, isPySpace c = true) ∧
      (∀ c ∈ val, (c != '"') = true) := by
  unfold tryMatchDefine at h
  cases h1 : dropLit defineLit s with
  | none => rw [h1] at h; simp at h
  | some r1 =>
    rw [h1] at h
    dsimp only at h
    by_cases h2 : (r1.takeWhile isPySpace).isEmpty = true
    · rw [if_pos h2] at h; simp at h
    · rw [if_neg h2] at h
      cases h3 : dropLit nameLit (r1.dropWhile isPySpace) with
      | none => rw [h3] at h; simp at h
      | some r3 =>
        rw [h3] at h
        dsimp only at h
        by_cases h4 : (r3.takeWhile isPySpace).isEmpty = true
        · rw [if_pos h4] at h; simp at h
        · rw [if_neg h4] at h
          cases h5 : r3.dropWhile isPySpace with
          | nil => rw [h5] at h; simp at h
          | cons c4 r5 =>
            rw [h5] at h
            dsimp only at h
            by_cases h6 : (c4 == '"') = true
            · rw [if_pos h6] at h
              cases h7 : r5.dropWhile (fun c => c != '"') with
              | nil => rw [h7] at h; simp at h
              | cons c6 r6 =>
                rw [h7] at h
                dsimp only at h
                simp only [Option.some.injEq, Prod.mk.injEq] at h
                obtain ⟨hg, hval, hr⟩ := h
                have hc4 : c4 = '"' := eq_of_beq h6
                have hc6 : c6 = '"' := by
                  have := dropWhile_head_false h7
                  simpa using this
                have hs1 : s = defineLit ++ r1 := dropLit_eq h1
                have hr1 : r1.takeWhile isPySpace ++ r1.dropWhile isPySpace = r1 :=
                  List.takeWhile_append_dropWhile _ _
                have hr1d : r1.dropWhile isPySpace = nameLit ++ r3 := dropLit_eq h3
                have hr3 : r3.takeWhile isPySpace ++ r3.dropWhile isPySpace = r3 :=
                  List.takeWhile_append_dropWhile _ _
                have hr5 : r5.takeWhile (fun c => c != '"') ++
                    r5.dropWhile (fun c => c != '"') = r5 :=
                  List.takeWhile_append_dropWhile _ _
                have e1 : r5 = r5.takeWhile (fun c => c != '"') ++ ('"' :: r6) := by
                  conv_lhs => rw [← hr5]
                  rw [h7, hc6]
                have e3 : r3 = r3.takeWhile isPySpace ++
                    ('"' :: (r5.takeWhile (fun c => c != '"') ++ ('"' :: r6))) := by
                  conv_lhs => rw [← hr3, h5, hc4, e1]
                have e2 : r1 = r1.takeWhile isPySpace ++ (nameLit ++
                    (r3.takeWhile isPySpace ++
                      ('"' :: (r5.takeWhile (fun c => c != '"') ++ ('"' :: r6))))) := by
                  conv_lhs => rw [← hr1, hr1d, e3]
                refine ⟨r1.takeWhile isPySpace, r3.takeWhile isPySpace, ?_, ?_,
                  isEmpty_false_ne_nil (by simpa using h2),
                  fun c hc => List.mem_takeWhile_imp hc,
                  isEmpty_false_ne_nil (by simpa using h4),
                  fun c hc => List.mem_takeWhile_imp hc, ?_⟩
                · rw [← hg, groupOne]
                · rw [hs1, ← hval, ← hr, groupOne]
                  conv_lhs => rw [e2]
                  simp [List.append_assoc]
                · intro c hc
                  rw [← hval] at hc
                  have h8 := List.mem_takeWhile_imp hc
                  exact h8
            · rw [if_neg h6] at h; simp at h

theorem groupOne_noQuote {w1 w2 : List Char}
    (hw1 : ∀ c ∈ w1, isPySpace c = true) (hw2 : ∀ c ∈ w2, isPySpace c = true) :
    ∀ c ∈ groupOne w1 w2, c ≠ '"' := by
  intro c hc
  simp only [groupOne, List.append_assoc, List.mem_append] at hc
  rcases hc with h | h | h | h
  · fin_cases h <;> decide
  · exact bne_iff_ne.mp (pySpace_ne_quote (hw1 c h))
  · fin_cases h <;> decide
  · exact bne_iff_ne.mp (pySpace_ne_quote (hw2 c h))

/-- If the regex matches a text whose quoted value region holds val2, it
also matches the text with that region holding quote-free val1 instead:
the leading portion of the pattern can never cross a quote. -/
theorem tryMatchDefine_congr_some {A val1 val2 B1 B2 g val r : List Char}
    (hv1 : ∀ c ∈ val1, c ≠ '"')
    (h : tryMatchDefine (A ++ '"' :: val2 ++ '"' :: B2) = some (g, val, r)) :
    ∃ g2 v2 r2, tryMatchDefine (A ++ '"' :: val1 ++ '"' :: B1) = some (g2, v2, r2) := by
  obtain ⟨w1, w2, hg, hs, hw1, hw1s, hw2, hw2s, hvq⟩ := tryMatchDefine_inv h
  have hpfx : ∀ c ∈ groupOne w1 w2, c ≠ '"' := groupOne_noQuote hw1s hw2s
  have hvalq : ∀ c ∈ val, c ≠ '"' := fun c hc => bne_iff_ne.mp (hvq c hc)
  have hv1b : ∀ c ∈ val1, (c != '"') = true := fun c hc => bne_iff_ne.mpr (hv1 c hc)
  rcases split_first_occ A '"' with hA | ⟨A1, A2, hA, hA1⟩
  · have huniq := first_occ_unique hA hpfx (by simpa [List.append_assoc] using hs)
    refine ⟨groupOne w1 w2, val1, B1, ?_⟩
    rw [huniq.1]
    exact tryMatchDefine_build hw1 hw1s hw2 hw2s hv1b B1
  · rw [hA] at hs
    have hs' : A1 ++ '"' :: (A2 ++ '"' :: (val2 ++ '"' :: B2)) =
        groupOne w1 w2 ++ '"' :: (val ++ '"' :: r) := by
      simpa [List.append_assoc] using hs
    have huniq := first_occ_unique hA1 hpfx hs'
    rcases split_first_occ A2 '"' with hA2 | ⟨A2a, A2b, hA2, hA2a⟩
    · have hA2b : ∀ c ∈ A2, (c != '"') = true :=
        fun c hc => bne_iff_ne.mpr (hA2 c hc)
      refine ⟨groupOne w1 w2, A2, val1 ++ '"' :: B1, ?_⟩
      rw [hA, huniq.1]
      have := tryMatchDefine_build hw1 hw1s hw2 hw2s hA2b (val1 ++ '"' :: B1)
      simpa [List.append_assoc] using this
    · have hA2ab : ∀ c ∈ A2a, (c != '"') = true :=
        fun c hc => bne_iff_ne.mpr (hA2a c hc)
      refine ⟨groupOne w1 w2, A2a, A2b ++ '"' :: (val1 ++ '"' :: B1), ?_⟩
      rw [hA, hA2, huniq.1]
      have := tryMatchDefine_build hw1 hw1s hw2 hw2s hA2ab
        (A2b ++ '"' :: (val1 ++ '"' :: B1))
      simpa [List.append_assoc] using this

/-- Failure of the regex at a position is preserved when the quoted value
region further right is replaced by another quote-free value. -/
theorem tryMatchDefine_congr_none {A val1 val2 B1 B2 : List Char}
    (hv1 : ∀ c ∈ val1, c ≠ '"')
    (h : tryMatchDefine (A ++ '"' :: val1 ++ '"' :: B1) = none) :
    tryMatchDefine (A ++ '"' :: val2 ++ '"' :: B2) = none := by
  cases hm : tryMatchDefine (A ++ '"' :: val2 ++ '"' :: B2) with
  | none => rfl
  | some t =>
    obtain ⟨g, val, r⟩ := t
    obtain ⟨g2, v2, r2, hsome⟩ := @tryMatchDefine_congr_some A val1 val2 B1 B2 g val r hv1 hm
    rw [hsome] at h
    exact absurd h (by simp)

theorem firstMatchDefine_of_tryMatch {l g val a : List Char} (hl : l ≠ [])
    (h : tryMatchDefine l = some (g, val, a)) :
    firstMatchDefine l = some ([], g, val, a) := by
  cases l with
  | nil => exact absurd rfl hl
  | cons c rest =>
    simp only [firstMatchDefine]
    rw [h]

/-- A leftmost match decomposes the scanned text, and the regex matches at
its position. -/
theorem firstMatchDefine_inv {l u g val a : List Char}
    (h : firstMatchDefine l = some (u, g, val, a)) :
    l = u ++ (g ++ '"' :: val ++ '"' :: a) ∧
      tryMatchDefine (g ++ '"' :: val ++ '"' :: a) = some (g, val, a) ∧
      (∀ c ∈ val, c ≠ '"') := by
  induction l generalizing u with
  | nil => simp [firstMatchDefine] at h
  | cons c rest ih =>
    simp only [firstMatchDefine] at h
    cases htm : tryMatchDefine (c :: rest) with
    | some t =>
      obtain ⟨t1, t2, t3⟩ := t
      rw [htm] at h
      dsimp only at h
      simp only [Option.some.injEq, Prod.mk.injEq] at h
      obtain ⟨hu, hg, hval, ha⟩ := h
      subst hu hg hval ha
      obtain ⟨w1, w2, hg, hs, _, hw1s, _, hw2s, hvq⟩ := tryMatchDefine_inv htm
      subst hg
      refine ⟨by simpa using hs, ?_, fun x hx => bne_iff_ne.mp (hvq x hx)⟩
      rw [hs] at htm
      exact htm
    | none =>
      rw [htm] at h
      dsimp only at h
      cases hfm : firstMatchDefine rest with
      | none => rw [hfm] at h; simp at h
      | some p =>
        obtain ⟨p1, p2, p3, p4⟩ := p
        rw [hfm] at h
        simp only [Option.map_some', Option.some.injEq, Prod.mk.injEq] at h
        obtain ⟨hu, hg, hval, ha⟩ := h
        subst hg hval ha
        obtain ⟨hdec, htm2, hvq⟩ := ih hfm
        rw [← hu, hdec]
        exact ⟨rfl, htm2, hvq⟩

theorem firstMatchDefine_length {l u g val a : List Char}
    (h : firstMatchDefine l = some (u, g, val, a)) : a.length < l.length := by
  have hd := (firstMatchDefine_inv h).1
  have := congrArg List.length hd
  simp only [List.length_append, List.length_cons] at this
  omega

/-- Replacing the quoted value of the leftmost match by a quote-free value,
and the text after it by anything, keeps the leftmost match in place. -/
theorem firstMatchDefine_congr {l u g val a v B : List Char}
    (h : firstMatchDefine l = some (u, g, val, a)) (hv : ∀ c ∈ v, c ≠ '"') :
    firstMatchDefine (u ++ g ++ '"' :: v ++ '"' :: B) = some (u, g, v, B) := by
  induction u generalizing l B with
  | nil =>
    cases l with
    | nil => simp [firstMatchDefine] at h
    | cons c rest =>
      simp only [firstMatchDefine] at h
      cases htm : tryMatchDefine (c :: rest) with
      | some t =>
        obtain ⟨t1, t2, t3⟩ := t
        rw [htm] at h
        dsimp only at h
        simp only [Option.some.injEq, Prod.mk.injEq] at h
        obtain ⟨_, hg, hval, ha⟩ := h
        subst hg hval ha
        obtain ⟨w1, w2, hg2, hs, hw1, hw1s, hw2, hw2s, _⟩ := tryMatchDefine_inv htm
        subst hg2
        have hvb : ∀ x ∈ v, (x != '"') = true :=
          fun x hx => bne_iff_ne.mpr (hv x hx)
        have hbuild := tryMatchDefine_build hw1 hw1s hw2 hw2s hvb B
        have hne : groupOne w1 w2 ++ '"' :: v ++ '"' :: B ≠ [] := by
          simp [groupOne, defineLit]
        simpa using firstMatchDefine_of_tryMatch hne hbuild
      | none =>
        rw [htm] at h
        dsimp only at h
        cases hfm : firstMatchDefine rest with
        | none => rw [hfm] at h; simp at h
        | some p =>
          rw [hfm] at h
          simp only [Option.map_some', Option.some.injEq, Prod.mk.injEq] at h
          exact absurd h.1.symm (by simp)
  | cons c u' ih =>
    cases l with
    | nil => simp [firstMatchDefine] at h
    | cons c0 rest =>
      simp only [firstMatchDefine] at h
      cases htm : tryMatchDefine (c0 :: rest) with
      | some t =>
        obtain ⟨t1, t2, t3⟩ := t
        rw [htm] at h
        dsimp only at h
        simp only [Option.some.injEq, Prod.mk.injEq] at h
        exact absurd h.1 (by simp)
      | none =>
        rw [htm] at h
        dsimp only at h
        cases hfm : firstMatchDefine rest with
        | none => rw [hfm] at h; simp at h
        | some p =>
          obtain ⟨p1, p2, p3, p4⟩ := p
          rw [hfm] at h
          simp only [Option.map_some', Option.some.injEq, Prod.mk.injEq] at h
          obtain ⟨hu, hg, hval, ha⟩ := h
          have hc0 : c0 = c := by
            have := congrArg (fun l => List.head? l) hu
            simpa using this
          have hu' : p1 = u' := by
            have := congrArg (fun l => List.tail l) hu
            simpa using this
          subst hc0 hu' hg hval ha
          obtain ⟨hdec, _, hvq⟩ := firstMatchDefine_inv hfm
          have htmnone : tryMatchDefine
              (c0 :: (p1 ++ (p2 ++ '"' :: v ++ '"' :: B))) = none := by
            have hold : tryMatchDefine
                ((c0 :: (p1 ++ p2)) ++ '"' :: p3 ++ '"' :: p4) = none := by
              rw [hdec] at htm
              simpa [List.append_assoc] using htm
            have hnew := @tryMatchDefine_congr_none (c0 :: (p1 ++ p2)) p3 v p4 B hvq hold
            simpa [List.append_assoc] using hnew
          have hgoal : (c0 :: p1) ++ p2 ++ '"' :: v ++ '"' :: B =
              c0 :: (p1 ++ (p2 ++ '"' :: v ++ '"' :: B)) := by
            simp [List.append_assoc]
          rw [hgoal]
          simp only [firstMatchDefine]
          rw [htmnone]
          dsimp only
          rw [show p1 ++ (p2 ++ '"' :: v ++ '"' :: B) =
            p1 ++ p2 ++ '"' :: v ++ '"' :: B from by simp [List.append_assoc]]
          rw [ih hfm]
          rfl

theorem subDefineFuel_nil (v : List Char) : ∀ k, subDefineFuel k v [] = [] := by
  intro k
  cases k with
  | zero => rfl
  | succ k => rfl

/-- The replacement is independent of the fuel once the fuel covers the
length of the text. -/
theorem subDefineFuel_congr (v : List Char) : ∀ n m (l : List Char),
    l.length ≤ n → l.length ≤ m → subDefineFuel n v l = subDefineFuel m v l := by
  intro n
  induction n with
  | zero =>
    intro m l hn _
    have : l = [] := List.eq_nil_of_length_eq_zero (Nat.le_zero.mp hn)
    subst this
    rw [subDefineFuel_nil, subDefineFuel_nil]
  | succ n ih =>
    intro m l hn hm
    cases m with
    | zero =>
      have : l = [] := List.eq_nil_of_length_eq_zero (Nat.le_zero.mp hm)
      subst this
      rw [subDefineFuel_nil, subDefineFuel_nil]
    | succ m' =>
      cases hfm : firstMatchDefine l with
      | none => simp [subDefineFuel, hfm]
      | some p =>
        obtain ⟨u, g, val, a⟩ := p
        simp only [subDefineFuel, hfm]
        have hlen := firstMatchDefine_length hfm
        rw [ih m' a (by omega) (by omega)]

theorem subDefine_none {l : List Char} (v : List Char)
    (h : firstMatchDefine l = none) : subDefine v l = l := by
  cases l with
  | nil => rfl
  | cons c rest => simp [subDefine, subDefineFuel, h]

theorem subDefine_some {l u g val a : List Char} (v : List Char)
    (h : firstMatchDefine l = some (u, g, val, a)) :
    subDefine v l = u ++ g ++ '"' :: v ++ '"' :: subDefine v a := by
  have hlen := firstMatchDefine_length h
  cases l with
  | nil => simp [firstMatchDefine] at h
  | cons c rest =>
    show subDefineFuel (c :: rest).length v (c :: rest) = _
    simp only [List.length_cons, subDefineFuel, h]
    rw [subDefineFuel_congr v rest.length a.length a (by simpa using Nat.lt_succ_iff.mp hlen) le_rfl]
    rfl

/-- pattern.sub with a quote-free replacement value is idempotent. -/
theorem subDefine_idem {v : List Char} (hv : ∀ c ∈ v, c ≠ '"') :
    ∀ l, subDefine v (subDefine v l) = subDefine v l := by
  suffices h : ∀ n (l : List Char), l.length ≤ n →
      subDefine v (subDefine v l) = subDefine v l by
    intro l
    exact h l.length l le_rfl
  intro n
  induction n with
  | zero =>
    intro l hl
    have : l = [] := List.eq_nil_of_length_eq_zero (Nat.le_zero.mp hl)
    subst this
    rfl
  | succ n ih =>
    intro l hl
    cases hfm : firstMatchDefine l with
    | none => rw [subDefine_none v hfm, subDefine_none v hfm]
    | some p =>
      obtain ⟨u, g, val, a⟩ := p
      rw [subDefine_some v hfm]
      have hfm2 : firstMatchDefine (u ++ g ++ '"' :: v ++ '"' :: subDefine v a) =
          some (u, g, v, subDefine v a) := firstMatchDefine_congr hfm hv
      rw [subDefine_some v hfm2]
      have hlen := firstMatchDefine_length hfm
      rw [ih a (by omega)]

/-- Substituting keeps the macro pattern present. -/
theorem searchDefine_subDefine {l v : List Char} (hv : ∀ c ∈ v, c ≠ '"')
    (h : searchDefine l = true) : searchDefine (subDefine v l) = true := by
  unfold searchDefine at h ⊢
  cases hfm : firstMatchDefine l with
  | none => rw [hfm] at h; simp at h
  | some p =>
    obtain ⟨u, g, val, a⟩ := p
    rw [subDefine_some v hfm, firstMatchDefine_congr hfm hv]
    rfl

/-- Running the header updater on its own output changes nothing. -/
theorem update_header_define_idem {mh mh2 : Option (List Char)} {v : List Char}
    {b : Bool} (hv : ∀ c ∈ v, c ≠ '"')
    (h : update_header_define mh v = .ok (mh2, b)) :
    update_header_define mh2 v = .ok (mh2, b) := by
  cases mh with
  | none =>
    simp only [update_header_define] at h
    cases h
    rfl
  | some content =>
    simp only [update_header_define] at h
    by_cases hs : searchDefine content = true
    · rw [if_pos hs] at h
      simp only [Except.ok.injEq, Prod.mk.injEq] at h
      obtain ⟨hmh, hb⟩ := h
      subst hmh hb
      simp only [update_header_define]
      rw [if_pos (searchDefine_subDefine hv hs), subDefine_idem hv]
    · rw [if_neg hs] at h
      simp at h

/-! ## Idempotence of one full invocation -/

/-- Running the properties updater on its own output changes nothing. -/
theorem update_library_properties_idem {mp mp2 : Option (List Char)}
    {v : List Char} {b : Bool} (hv : ∀ c ∈ v, isLineBreak c = false)
    (h : update_library_properties mp v = (mp2, b)) :
    update_library_properties mp2 v = (mp2, b) := by
  cases mp with
  | none =>
    simp only [update_library_properties] at h
    injection h with h1 h2
    subst h1 h2
    rfl
  | some content =>
    simp only [update_library_properties] at h
    injection h with h1 h2
    subst h1 h2
    simp only [update_library_properties, updatePropsContent_idem hv]

/-- A successful run with a valid version, run again on its own output,
succeeds and leaves every file unchanged. -/
theorem main_idem {st : FsState} {v : List Char} {res : MainResult}
    (hsem : semverCore v = true)
    (h : main st (some v) = res) (hc : res.exitCode = 0) :
    main res.fs (some v) = ⟨res.fs, 0, none, res.warnedNoTargets⟩ := by
  have hvbreak : ∀ c ∈ v, isLineBreak c = false :=
    fun c hcm => ((semver_char_safe hsem c hcm).2).1
  have hvquote : ∀ c ∈ v, c ≠ '"' :=
    fun c hcm => bne_iff_ne.mp (((semver_char_safe hsem c hcm).2).2).1
  unfold main at h
  rw [resolve_ok hsem st.versionFile] at h
  dsimp only at h
  cases hj : update_library_json st.libraryJson v with
  | error e =>
    rw [hj] at h
    dsimp only at h
    rw [← h] at hc
    simp at hc
  | ok pj =>
    obtain ⟨mj, b1⟩ := pj
    rw [hj] at h
    dsimp only at h
    cases hp : update_library_properties st.libraryProps v with
    | mk mp b2 =>
      rw [hp] at h
      dsimp only at h
      cases hh : update_header_define st.headerFile v with
      | error e =>
        rw [hh] at h
        dsimp only at h
        rw [← h] at hc
        simp at hc
      | ok ph =>
        obtain ⟨mh, b3⟩ := ph
        rw [hh] at h
        dsimp only at h
        subst h
        unfold main
        rw [resolve_ok hsem _]
        dsimp only
        rw [update_library_json_idem hj]
        dsimp only
        rw [update_library_properties_idem hvbreak hp]
        dsimp only
        rw [update_header_define_idem hvquote hh]

/-! ## Claim theorems -/

/-- C1, counterexample: the claim fails as stated.  With the empty string as
the explicit argument, resolution does not fail fatally but consults the
marker file and succeeds (Python truthiness makes an empty argument fall
back to the file); and the argument " 1.2.3 " does not fully match the
version pattern yet resolution succeeds, because only its trimmed form is
validated. -/
theorem c1_counterexample :
    read_version_arg_or_file (some (strL "9.9.9\n")) (some (strL "")) =
      .ok (strL "9.9.9") ∧
    read_version_arg_or_file none (some (strL " 1.2.3 ")) = .ok (strL "1.2.3") :=
  ⟨rfl, rfl⟩

/-- C1, amended: for every non-empty explicit argument whose trimmed form
does not match the version pattern, resolution fails fatally echoing the
trimmed candidate, and the marker file is never consulted; an empty explicit
argument is instead treated as no argument and falls back to the marker
file. -/
theorem c1_amended (s : List Char) (vf : Option (List Char)) (hne : s ≠ [])
    (hmatch : pyMatch (pyStrip s) = false) :
    read_version_arg_or_file vf (some s) = .error (.invalidVersion (pyStrip s)) :=
  resolve_invalid hne hmatch vf

/-- C1, witness: the invalid argument v1.2.3 is rejected with a terminating
error echoing it, independently of the marker file. -/
theorem c1_amended_witness :
    read_version_arg_or_file (some (strL "1.2.3")) (some (strL "v1.2.3")) =
      .error (.invalidVersion (strL "v1.2.3")) :=
  c1_amended (strL "v1.2.3") (some (strL "1.2.3")) (by decide) (by decide)

/-- C2: every string fully matching the three-part version pattern, passed
as the explicit argument, resolves successfully to itself, whatever the
state of the marker file (which is not consulted, and nothing is written). -/
theorem c2_resolution_returns_valid_version (v : List Char)
    (vf : Option (List Char)) (h : semverCore v = true) :
    read_version_arg_or_file vf (some v) = .ok v :=
  resolve_ok h vf

/-- C2, witness: 1.2.3 resolves to itself with no marker file present. -/
theorem c2_witness :
    read_version_arg_or_file none (some (strL "1.2.3")) = .ok (strL "1.2.3") :=
  c2_resolution_returns_valid_version (strL "1.2.3") none (by decide)

/-- C3: on an existing properties file, if the line sequence splits as lines
before the first version= line, that line, and the rest, exactly the first
version= line is rewritten and every other line keeps its content and its
position; if no line starts with version=, a fresh version line is appended
as the new last line; in both cases the updater reports true. -/
theorem c3_properties_update (content v : List Char) :
    (∀ l1 hd l2, pySplitlines content = l1 ++ hd :: l2 →
      (∀ x ∈ l1, versionEq.isPrefixOf x = false) →
      versionEq.isPrefixOf hd = true →
      update_library_properties (some content) v =
        (some (joinNL (l1 ++ (versionEq ++ v) :: l2) ++ ['\n']), true)) ∧
    ((∀ x ∈ pySplitlines content, versionEq.isPrefixOf x = false) →
      update_library_properties (some content) v =
        (some (joinNL (pySplitlines content ++ [versionEq ++ v]) ++ ['\n']), true)) := by
  constructor
  · intro l1 hd l2 hsplit h1 hhd
    simp only [update_library_properties, updatePropsContent, hsplit,
      setVersionLine_first h1 hhd]
  · intro hall
    simp only [update_library_properties, updatePropsContent,
      setVersionLine_none hall]

/-- C3, witness: the specification example, with the middle line rewritten
in place. -/
theorem c3_witness :
    update_library_properties (some (strL "foo=bar\nversion=0.0.1\nbaz=qux"))
      (strL "1.0.0") = (some (strL "foo=bar\nversion=1.0.0\nbaz=qux\n"), true) :=
  (c3_properties_update (strL "foo=bar\nversion=0.0.1\nbaz=qux")
      (strL "1.0.0")).1
    [strL "foo=bar"] (strL "version=0.0.1") [strL "baz=qux"]
    (by decide) (by decide) (by decide)

/-- C4: on an existing header file in which the macro pattern does not occur
anywhere, the header updater raises a terminating error before any write, so
the file keeps its content (the updater returns the error without producing
a new file state); an absent header file is instead a silent skip returning
false with no error. -/
theorem c4_header_missing_pattern_fatal (content v : List Char)
    (h : searchDefine content = false) :
    update_header_define (some content) v = .error .headerDefineNotFound ∧
    update_header_define none v = .ok (none, false) := by
  constructor
  · simp [update_header_define, h]
  · rfl

/-- C4, witness: a header without the macro is a fatal error while an absent
header is a skip. -/
theorem c4_witness :
    update_header_define (some (strL "int x;\n")) (strL "1.2.0") =
      .error .headerDefineNotFound ∧
    update_header_define none (strL "1.2.0") = .ok (none, false) :=
  c4_header_missing_pattern_fatal (strL "int x;\n") (strL "1.2.0") (by decide)

/-- C5: applying the script twice with the same valid version is idempotent:
if the first invocation succeeds, the second invocation also succeeds and
leaves every target file (marker, manifest, properties, header) byte
identical to its content after the first invocation, and prints the same
warning state. -/
theorem c5_idempotent (st : FsState) (v : List Char) (res : MainResult)
    (hsem : semverCore v = true) (h : main st (some v) = res)
    (hc : res.exitCode = 0) :
    main res.fs (some v) = ⟨res.fs, 0, none, res.warnedNoTargets⟩ :=
  main_idem hsem h hc

/-- The initial file state used by the idempotence witness: all four target
files exist with version 0.0.1 recorded in each format. -/
def c5State : FsState :=
  ⟨none,
    some (Json.obj [(strL "name", Json.str (strL "x")),
      (strL "version", Json.str (strL "0.0.1"))]),
    some (strL "version=0.0.1\n"),
    some (strL "#define IS31FL373X_VERSION \"0.0.1\"\n")⟩

/-- C5, witness: one concrete run over all four files, run again on its own
output, reproduces that output exactly. -/
theorem c5_witness :
    main (main c5State (some (strL "1.2.3"))).fs (some (strL "1.2.3")) =
      ⟨(main c5State (some (strL "1.2.3"))).fs, 0, none,
        (main c5State (some (strL "1.2.3"))).warnedNoTargets⟩ :=
  c5_idempotent c5State (strL "1.2.3") (main c5State (some (strL "1.2.3")))
    (by decide) rfl (by decide)

/-- C6: invoked with no argument while the marker file does not exist, the
run fails fatally with the missing-input error, exits with code 1, and no
file is written or modified: the final file state is exactly the initial
one. -/
theorem c6_missing_input (st : FsState) (h : st.versionFile = none) :
    main st none = ⟨st, 1, some .noVersionProvided, false⟩ := by
  have hread : read_version_arg_or_file st.versionFile none =
      .error .noVersionProvided := by
    rw [h]
    rfl
  unfold main
  rw [hread]

/-- C6, witness: with target files present but no marker and no argument,
nothing changes and the run exits non-zero. -/
theorem c6_witness :
    main ⟨none, some (Json.obj []), some (strL "a=b\n"), some (strL "x")⟩ none =
      ⟨⟨none, some (Json.obj []), some (strL "a=b\n"), some (strL "x")⟩, 1,
        some .noVersionProvided, false⟩ :=
  c6_missing_input _ rfl

/-- C7: invoked with a valid version argument while all three format target
files are absent, the run writes the marker file with the version plus a
trailing newline, prints the warning that no targets were updated, and still
exits with code 0. -/
theorem c7_no_targets_warning (st : FsState) (v : List Char)
    (hsem : semverCore v = true) (hj : st.libraryJson = none)
    (hp : st.libraryProps = none) (hh : st.headerFile = none) :
    main st (some v) =
      ⟨⟨some (v ++ ['\n']), none, none, none⟩, 0, none, true⟩ := by
  unfold main
  rw [resolve_ok hsem st.versionFile]
  dsimp only
  rw [hj, hp, hh]
  rfl

/-- C7, witness: the specification scenario with version 1.0.9. -/
theorem c7_witness :
    main ⟨some (strL "0.0.1\n"), none, none, none⟩ (some (strL "1.0.9")) =
      ⟨⟨some (strL "1.0.9\n"), none, none, none⟩, 0, none, true⟩ :=
  c7_no_targets_warning ⟨some (strL "0.0.1\n"), none, none, none⟩
    (strL "1.0.9") (by decide) rfl rfl rfl

/-- C8: on an existing manifest parsed as a JSON object, the updater assigns
the version key to the resolved version and returns true; the version key
then holds exactly the new version, every other key keeps its value, the key
order is preserved (with version appended at the end only when it was
absent), and the document is re-serialized with two-space indentation and a
trailing newline, as the concrete conjunct shows on the specification
example. -/
theorem c8_manifest_update (fields : List (List Char × Json)) (v : List Char) :
    update_library_json (some (Json.obj fields)) v =
      .ok (some (Json.obj (dictSet fields versionKey (Json.str v))), true) ∧
    lookupKey (dictSet fields versionKey (Json.str v)) versionKey =
      some (Json.str v) ∧
    (∀ k, k ≠ versionKey →
      lookupKey (dictSet fields versionKey (Json.str v)) k = lookupKey fields k) ∧
    keysOf (dictSet fields versionKey (Json.str v)) =
      (if containsKey fields versionKey then keysOf fields
       else keysOf fields ++ [versionKey]) ∧
    manifestDump (Json.obj (dictSet
      [(strL "name", Json.str (strL "x")),
       (strL "version", Json.str (strL "0.0.1"))]
      versionKey (Json.str (strL "1.0.0")))) =
      strL "\x7b\n  \"name\": \"x\",\n  \"version\": \"1.0.0\"\n\x7d\n" :=
  ⟨rfl, lookupKey_dictSet_self _ _ _,
    fun k hk => lookupKey_dictSet_other hk _ _,
    keysOf_dictSet _ _ _, by decide⟩

/-- C8, witness: in the specification example the name key keeps its value
after the version is set. -/
theorem c8_witness :
    lookupKey (dictSet [(strL "name", Json.str (strL "x")),
      (strL "version", Json.str (strL "0.0.1"))] versionKey
      (Json.str (strL "1.0.0"))) (strL "name") = some (Json.str (strL "x")) :=
  (c8_manifest_update [(strL "name", Json.str (strL "x")),
    (strL "version", Json.str (strL "0.0.1"))] (strL "1.0.0")).2.2.1
    (strL "name") (by decide)

/-- C9: on an existing header whose scan finds a first occurrence of the
macro pattern and a second occurrence after it, the updater rewrites the
quoted value of both occurrences (and of every further one, through the
recursive remainder), not only the first. -/
theorem c9_header_rewrites_every_occurrence
    {content u1 g1 val1 a1 u2 g2 val2 a2 : List Char} (v : List Char)
    (h1 : firstMatchDefine content = some (u1, g1, val1, a1))
    (h2 : firstMatchDefine a1 = some (u2, g2, val2, a2)) :
    update_header_define (some content) v =
      .ok (some (u1 ++ g1 ++ '"' :: v ++ '"' ::
        (u2 ++ g2 ++ '"' :: v ++ '"' :: subDefine v a2)), true) := by
  have hs : searchDefine content = true := by
    unfold searchDefine
    rw [h1]
    rfl
  simp only [update_header_define]
  rw [if_pos hs, subDefine_some v h1, subDefine_some v h2]

/-- C9, witness: a header with two macro occurrences has both quoted values
rewritten. -/
theorem c9_witness :
    update_header_define
      (some (strL "#define IS31FL373X_VERSION \"0.0.1\"\nint x;\n#define IS31FL373X_VERSION \"9.9.9\"\n"))
      (strL "1.2.3") =
      .ok (some (strL "#define IS31FL373X_VERSION \"1.2.3\"\nint x;\n#define IS31FL373X_VERSION \"1.2.3\"\n"),
        true) :=
  c9_header_rewrites_every_occurrence (strL "1.2.3")
    (by decide : firstMatchDefine
      (strL "#define IS31FL373X_VERSION \"0.0.1\"\nint x;\n#define IS31FL373X_VERSION \"9.9.9\"\n") =
      some (strL "", strL "#define IS31FL373X_VERSION ", strL "0.0.1",
        strL "\nint x;\n#define IS31FL373X_VERSION \"9.9.9\"\n"))
    (by decide : firstMatchDefine
      (strL "\nint x;\n#define IS31FL373X_VERSION \"9.9.9\"\n") =
      some (strL "\nint x;\n", strL "#define IS31FL373X_VERSION ",
        strL "9.9.9", strL "\n"))

/-- C10, counterexample: the collapse part of the claim fails: a properties
file ending in several newlines is rewritten to exactly the same bytes, so
multiple trailing newlines are not collapsed to one (splitlines keeps one
empty line per extra trailing newline and the join restores it). -/
theorem c10_counterexample :
    updatePropsContent (strL "version=1.0.0\n\n\n") (strL "1.0.0") =
      strL "version=1.0.0\n\n\n" ∧
    strL "version=1.0.0\n\n\n" ≠ strL "version=1.0.0\n" :=
  ⟨by decide, by decide⟩

/-- C10, amended: the properties updater always rewrites an existing file as
its split lines joined with newlines plus exactly one final newline, so
bytes outside the changed version line can change: a CRLF line ending
becomes LF and a missing final newline is appended, even when the version
line itself is unchanged; runs of trailing newlines, however, are preserved,
because each extra trailing newline splits into an empty line that rejoins
as a newline. -/
theorem c10_amended (content v : List Char) :
    update_library_properties (some content) v =
      (some (joinNL (match setVersionLine (pySplitlines content) v with
        | some ls => ls
        | none => pySplitlines content ++ [versionEq ++ v]) ++ ['\n']), true) ∧
    updatePropsContent (strL "a=b\r\nversion=1\n") (strL "2.0.0") =
      strL "a=b\nversion=2.0.0\n" ∧
    updatePropsContent (strL "version=1.0.0\nx=y") (strL "1.0.0") =
      strL "version=1.0.0\nx=y\n" ∧
    updatePropsContent (strL "version=1.0.0\n\n\n") (strL "1.0.0") =
      strL "version=1.0.0\n\n\n" :=
  ⟨rfl, by decide, by decide, by decide⟩

end SetVersion
